import Mathlib

/-!
Verification development for the rnla repository (rusty numerical linear
algebra). The Rust source in src/lib.rs, src/rng.rs and src/operations.rs is
shallowly embedded below: matrices are rows/cols plus a flat list of entries,
views are lists of row lists, fallible operations (Rust panics from `assert`,
slice indexing, `expect`) return `Except String` or `Option`, and the i64
state of the random generator is an integer with two's-complement wrapping
made explicit where a multiplication could overflow. Floating-point entries
are kept abstract (an arbitrary type with supplied zero/add/mul) where only
the order of operations matters, and are taken as rationals where the Rust
code's f64 computations are exact (the generator's num/den with den a small
power of two).
-/

namespace Rnla

variable {α : Type}

/-- Entry (i, j) of a list-of-rows, with default `z` out of bounds.
Models the unchecked read path `*self.data.get_unchecked(i).get_unchecked(j)`
of the views; all verified uses stay in bounds. -/
def getE (z : α) (d : List (List α)) (i j : ℕ) : α :=
  (d.getD i []).getD j z

/-- Write entry (i, j) of a list-of-rows (no-op out of bounds).
Models the unchecked write path of `MatrixViewMut`; all verified uses stay
in bounds. -/
def setE (d : List (List α)) (i j : ℕ) (x : α) : List (List α) :=
  d.set i ((d.getD i []).set j x)

/-- The list-of-rows shape invariant of a view over an `m × n` matrix:
`m` rows, each of length `n`. -/
def Rect (m n : ℕ) (d : List (List α)) : Prop :=
  d.length = m ∧ ∀ r ∈ d, r.length = n

instance (m n : ℕ) (d : List (List α)) [DecidableEq α] : Decidable (Rect m n d) := by
  unfold Rect; infer_instance

/-- Rust `Matrix` from src/lib.rs: row-major flat buffer with dimensions `m × n`.
The Rust field invariant `data.len() == m * n` is carried as a hypothesis of
the theorems. -/
structure Matrix (α : Type) where
  m : ℕ
  n : ℕ
  data : List α
  deriving DecidableEq

/-- Rust `MatrixView` from src/lib.rs: read-only list of borrowed row slices. -/
structure MatrixView (α : Type) where
  m : ℕ
  n : ℕ
  data : List (List α)
  deriving DecidableEq

/-- Rust `MatrixViewMut` from src/lib.rs: mutable list of disjoint row slices. -/
structure MatrixViewMut (α : Type) where
  m : ℕ
  n : ℕ
  data : List (List α)
  deriving DecidableEq

/-- Rust `Matrix::from_vec`: adopts the list as backing storage after
`assert_eq!(m * n, data.len())`; the failed assertion (a Rust panic) is the
error case. -/
def Matrix.from_vec (m n : ℕ) (data : List α) : Except String (Matrix α) :=
  if m * n = data.length then .ok ⟨m, n, data⟩
  else .error "assertion failed: m * n == data.len()"

/-- Rust `Matrix::zero`: an `m × n` matrix of zeros (`z` is the zero of `α`). -/
def Matrix.zero (z : α) (m n : ℕ) : Matrix α :=
  ⟨m, n, (List.range (m * n)).map fun _ => z⟩

/-- Rust `Matrix::rand` from src/lib.rs. The source draws each entry from the
external `rand` crate's thread-local generator (`rand::rng()` followed by
`rng.random()` once per entry, iterating the flat row-major range
`0..m * n`); that external generator is embedded as a draw stream
`s : ℕ → ℚ`, where `s k` is the k-th value `rng.random()` returns. Note the
source does NOT use the repository's own `RNG` from src/rng.rs. -/
def Matrix.rand (m n : ℕ) (s : ℕ → ℚ) : Matrix ℚ :=
  ⟨m, n, (List.range (m * n)).map s⟩

/-- Rust `Matrix::to_vec`: returns the backing storage. -/
def Matrix.to_vec (A : Matrix α) : List α :=
  A.data

/-- Rust `Matrix::get` (checked): Rust indexes the flat buffer at `i * n + j`,
panicking exactly when that flat offset is outside the buffer. -/
def Matrix.get (A : Matrix α) (i j : ℕ) : Except String α :=
  match A.data[i * A.n + j]? with
  | some x => .ok x
  | none => .error "index out of bounds"

/-- Rust `Matrix::set` (checked): writes the flat buffer at `i * n + j`,
panicking exactly when that flat offset is outside the buffer. -/
def Matrix.set (A : Matrix α) (i j : ℕ) (x : α) : Except String (Matrix α) :=
  if i * A.n + j < A.data.length then .ok ⟨A.m, A.n, A.data.set (i * A.n + j) x⟩
  else .error "index out of bounds"

/-- Rust `Matrix::view`: read-only view whose row `i` borrows
`data[i*n .. i*n + n]`. -/
def Matrix.view (A : Matrix α) : MatrixView α :=
  ⟨A.m, A.n, (List.range A.m).map fun i => (A.data.drop (i * A.n)).take A.n⟩

/-- The row-splitting loop of `Matrix::view_mut`: repeatedly
`split_at_mut(n)` on the remaining buffer, collecting `m` row slices. -/
def splitRows : ℕ → ℕ → List α → List (List α)
  | 0, _, _ => []
  | m + 1, n, remain => remain.take n :: splitRows m n (remain.drop n)

/-- Rust `Matrix::view_mut`: mutable view built by partitioning the buffer into
`m` disjoint row chunks of length `n`. -/
def Matrix.view_mut (A : Matrix α) : MatrixViewMut α :=
  ⟨A.m, A.n, splitRows A.m A.n A.data⟩

/-- Rust `MatrixView::get` (checked): `self.data[i][j]`, panicking when `i` is
outside the row list or `j` outside the row. -/
def MatrixView.get (v : MatrixView α) (i j : ℕ) : Except String α :=
  match v.data[i]? with
  | none => .error "index out of bounds"
  | some r =>
    match r[j]? with
    | none => .error "index out of bounds"
    | some x => .ok x

/-- Rust `MatrixView::set`: unconditionally panics with
"cannot set entries with MatrixView"; no write happens and no updated view is
produced. -/
def MatrixView.set (_v : MatrixView α) (_i _j : ℕ) (_x : α) :
    Except String (MatrixView α) :=
  .error "cannot set entries with MatrixView"

/-- Rust `MatrixView::set_unchecked`: also unconditionally panics with the same
message; no write happens. -/
def MatrixView.set_unchecked (_v : MatrixView α) (_i _j : ℕ) (_x : α) :
    Except String (MatrixView α) :=
  .error "cannot set entries with MatrixView"

/-- Rust `MatrixView::get_unchecked` (caller must keep `i < m`, `j < n`). -/
def MatrixView.get_unchecked (z : α) (v : MatrixView α) (i j : ℕ) : α :=
  getE z v.data i j

/-- Rust `MatrixViewMut::get` (checked): `self.data[i][j]`. -/
def MatrixViewMut.get (v : MatrixViewMut α) (i j : ℕ) : Except String α :=
  match v.data[i]? with
  | none => .error "index out of bounds"
  | some r =>
    match r[j]? with
    | none => .error "index out of bounds"
    | some x => .ok x

/-- Rust `MatrixViewMut::set` (checked): `self.data[i][j] = value`, panicking on
an out-of-bounds row or column index. -/
def MatrixViewMut.set (v : MatrixViewMut α) (i j : ℕ) (x : α) :
    Except String (MatrixViewMut α) :=
  match v.data[i]? with
  | none => .error "index out of bounds"
  | some r =>
    if j < r.length then .ok ⟨v.m, v.n, setE v.data i j x⟩
    else .error "index out of bounds"

/-- Rust `MatrixViewMut::get_unchecked` (caller must keep `i < m`, `j < n`). -/
def MatrixViewMut.get_unchecked (z : α) (v : MatrixViewMut α) (i j : ℕ) : α :=
  getE z v.data i j

/-- Rust `MatrixViewMut::set_unchecked` (caller must keep `i < m`, `j < n`). -/
def MatrixViewMut.set_unchecked (v : MatrixViewMut α) (i j : ℕ) (x : α) :
    MatrixViewMut α :=
  ⟨v.m, v.n, setE v.data i j x⟩

/-- Rust `matmul` from src/lib.rs, over abstract entry arithmetic `(z, add, mul)`
so the statement fixes only the order of floating-point operations, exactly
as IEEE-754 f64 would perform them. The three `assert_eq!` dimension checks
come first (a failed one is a panic, hence `.error`, before any write); then
the zero-initialization sweep over `0..c.m × 0..c.n` via the unchecked write
path; then the i-k-j triple loop accumulating
`c[i][j] = c[i][j] + a[i][k] * b[k][j]`. -/
def matmul (z : α) (add mul : α → α → α) (a b : MatrixView α)
    (c : MatrixViewMut α) : Except String (MatrixViewMut α) :=
  if a.m ≠ c.m then .error "assertion failed: a.m == c.m"
  else if a.n ≠ b.m then .error "assertion failed: a.n == b.m"
  else if b.n ≠ c.n then .error "assertion failed: b.n == c.n"
  else
    let c1 := (List.range c.m).foldl
      (fun d i => (List.range c.n).foldl (fun d' j => setE d' i j z) d) c.data
    let c2 := (List.range a.m).foldl
      (fun d i => (List.range a.n).foldl
        (fun d' k => (List.range b.n).foldl
          (fun d'' j =>
            setE d'' i j
              (add (getE z d'' i j) (mul (getE z a.data i k) (getE z b.data k j))))
          d') d) c1
    .ok ⟨c.m, c.n, c2⟩

/-- Two's-complement wrapping of an integer into the i64 range, as Rust's
release-mode arithmetic would produce on overflow. It is the identity on
values already in `[-2^63, 2^63)`. -/
def wrap64 (x : ℤ) : ℤ :=
  (x + 2 ^ 63) % 2 ^ 64 - 2 ^ 63

/-- Rust `RNG` from src/rng.rs: the i64 state `last` and the LCG parameters
`a` (multiplier), `c` (increment), `m` (modulus). -/
structure RNG where
  last : ℤ
  a : ℤ
  c : ℤ
  m : ℤ
  deriving DecidableEq

/-- Rust `RNG::new`: seeds the state and fixes the LCG constants
1664525, 1013904223, 4294967296 = 2^32. -/
def RNG.new (seed : ℤ) : RNG :=
  ⟨seed, 1664525, 1013904223, 4294967296⟩

/-- Rust `RNG::rand_i64`: `self.last = (self.a * self.last + self.c) % self.m`,
returning the new state. Rust's i64 `%` is the truncated remainder
(`Int.tmod`); the multiply-add is wrapped to i64 as release-mode Rust
would wrap it (for every state reachable after one step no wrapping
occurs). Returns the drawn value together with the updated generator. -/
def RNG.rand_i64 (r : RNG) : ℤ × RNG :=
  let v := (wrap64 (r.a * r.last + r.c)).tmod r.m
  (v, { r with last := v })

/-- Rust `RNG::rand_f64`: draws `exp = rand_i64() % 16`; Rust then converts
`exp` to `u32` via `try_into().expect(..)`, which panics (the `none` case)
whenever `exp` is negative; on success computes `den = 2^exp`,
`num = rand_i64() % den` and returns `num as f64 / den as f64`. Since
`|num| < den ≤ 2^15`, the two int-to-f64 conversions and the division by a
power of two are exact in IEEE-754 f64, so the result is embedded as the
exact rational `num / den`. -/
def RNG.rand_f64 (r : RNG) : Option (ℚ × RNG) :=
  let p1 := r.rand_i64
  let exp := p1.1.tmod 16
  if 0 ≤ exp then
    let den : ℤ := 2 ^ exp.toNat
    let p2 := p1.2.rand_i64
    let num := p2.1.tmod den
    some ((num : ℚ) / (den : ℚ), p2.2)
  else none

/-- The sequence of generator states obtained by iterating `rand_i64` from
a fresh `RNG::new seed`. -/
def rngStates (seed : ℤ) : ℕ → RNG
  | 0 => RNG.new seed
  | k + 1 => ((rngStates seed k).rand_i64).2

/-- The k-th value `rand_i64` returns when iterated from `RNG::new seed`. -/
def i64Seq (seed : ℤ) (k : ℕ) : ℤ :=
  ((rngStates seed k).rand_i64).1

/-- Modelled from the spec: the matrix × vector multiply `matvecmul`
(spec section 4.4) is absent from the source — src/operations.rs holds only
the empty stub `fn gaxpy() {}` — so it is modelled here from the spec's
words: fail with a dimension-mismatch error unless `v.length == a.cols` and
`u.length == a.rows`; otherwise, for each row `i`, first zero `u[i]`, then
accumulate `u[i] = u[i] + a[i][j] * v[j]` in column order `j = 0..cols`.
Entry arithmetic is abstract `(z, add, mul)`, fixing the accumulation order
as IEEE-754 f64 would perform it. -/
def matvecmul (z : α) (add mul : α → α → α) (a : Matrix α) (v u : List α) :
    Except String (List α) :=
  if v.length = a.n ∧ u.length = a.m then
    .ok ((List.range a.m).foldl
      (fun w i => (List.range a.n).foldl
        (fun w' j =>
          w'.set i (add (w'.getD i z) (mul (a.data.getD (i * a.n + j) z) (v.getD j z))))
        (w.set i z)) u)
  else .error "dimension mismatch"

/-! ### Helper lemmas -/

/-- The map `wrap64` is the identity on the i64 range. -/
theorem wrap64_eq_self {x : ℤ} (h1 : -(2 ^ 63) ≤ x) (h2 : x < 2 ^ 63) :
    wrap64 x = x := by
  unfold wrap64
  have hpow : (2 : ℤ) ^ 64 = 2 * 2 ^ 63 := by norm_num
  have h3 : 0 ≤ x + 2 ^ 63 := by linarith
  have h4 : x + 2 ^ 63 < 2 ^ 64 := by rw [hpow]; linarith
  rw [Int.emod_eq_of_lt h3 h4]
  ring

/-! ### C2, C7, C8, C10 -/

/-- C2: `matmul` raises a dimension-mismatch error whenever `a.m ≠ c.m`,
`a.n ≠ b.m`, or `b.n ≠ c.n`. In the source the three `assert_eq!` checks
precede the zero-initialization sweep, so the panic fires before any write;
in this embedding the error is returned before the buffer `c.data` is ever
rebuilt, so no modified view exists and `c` is left unchanged. -/
theorem matmul_dim_mismatch (z : α) (add mul : α → α → α)
    (a b : MatrixView α) (c : MatrixViewMut α)
    (h : a.m ≠ c.m ∨ a.n ≠ b.m ∨ b.n ≠ c.n) :
    ∃ e, matmul z add mul a b c = .error e := by
  unfold matmul
  split_ifs with h1 h2 h3
  · exact ⟨_, rfl⟩
  · exact ⟨_, rfl⟩
  · exact ⟨_, rfl⟩
  · rcases h with h | h | h
    · exact (h1 h).elim
    · exact (h2 h).elim
    · exact (h3 h).elim

/-- C2 witness: a 1×2 by 3×1 mismatch is rejected. -/
theorem matmul_dim_mismatch_witness :
    ((MatrixView.mk 1 2 [[(1 : ℚ), 2]]).n ≠ (MatrixView.mk 3 1 [[3], [4], [5]]).m ∨
      (MatrixView.mk 1 2 [[(1 : ℚ), 2]]).n ≠ (MatrixView.mk 3 1 [[3], [4], [5]]).m ∨
      (MatrixView.mk 3 1 [[(3 : ℚ)], [4], [5]]).n ≠ (MatrixViewMut.mk 1 1 [[0]]).n) ∧
    ∃ e, matmul (0 : ℚ) (· + ·) (· * ·) (MatrixView.mk 1 2 [[(1 : ℚ), 2]])
      (MatrixView.mk 3 1 [[3], [4], [5]]) (MatrixViewMut.mk 1 1 [[0]]) = .error e := by
  refine ⟨by decide, ?_⟩
  exact matmul_dim_mismatch (0 : ℚ) (· + ·) (· * ·) (MatrixView.mk 1 2 [[(1 : ℚ), 2]])
    (MatrixView.mk 3 1 [[3], [4], [5]]) (MatrixViewMut.mk 1 1 [[0]]) (by decide)

/-- C7: `set` and `set_unchecked` on the read-only `MatrixView` fail fast
for every index pair and every value, with the hard panic
"cannot set entries with MatrixView", and return no updated view, so no
memory write ever happens; the operation is never a silent no-op. -/
theorem view_set_rejected (v : MatrixView α) (i j : ℕ) (x : α) :
    v.set i j x = .error "cannot set entries with MatrixView" ∧
    v.set_unchecked i j x = .error "cannot set entries with MatrixView" :=
  ⟨rfl, rfl⟩

/-- C8: `rand_i64` updates the state to
`(1664525 * state + 1013904223) % 2^32` (the source's i64 `%`, i.e. the
truncated remainder, which agrees with the mathematical `mod` for the
non-negative states) and returns the new state; and, the generator being a
pure function of its state, two RNGs constructed with the same seed produce
identical `rand_i64` output sequences. The overflow-freedom bounds hold for
every state reachable after one step and for every seed of magnitude below
`2^63 / 1664525`. -/
theorem rand_i64_lcg_step (r : RNG) (ha : r.a = 1664525)
    (hc : r.c = 1013904223) (hm : r.m = 4294967296)
    (hlo : -(2 ^ 63) ≤ 1664525 * r.last + 1013904223)
    (hhi : 1664525 * r.last + 1013904223 < 2 ^ 63) :
    (r.rand_i64).1 = (1664525 * r.last + 1013904223).tmod (2 ^ 32) ∧
    (r.rand_i64).2.last = (r.rand_i64).1 ∧
    (0 ≤ r.last → (r.rand_i64).1 = (1664525 * r.last + 1013904223) % 2 ^ 32) ∧
    ∀ s1 s2 : ℤ, s1 = s2 → ∀ k, i64Seq s1 k = i64Seq s2 k := by
  have hv : (r.rand_i64).1 = (1664525 * r.last + 1013904223).tmod (2 ^ 32) := by
    show (wrap64 (r.a * r.last + r.c)).tmod r.m = _
    rw [ha, hc, hm, wrap64_eq_self hlo hhi]
    norm_num
  refine ⟨hv, rfl, ?_, ?_⟩
  · intro h0
    have hnn : 0 ≤ 1664525 * r.last + 1013904223 := by positivity
    rw [hv, Int.tmod_eq_emod hnn (by positivity)]
  · intro s1 s2 hs k
    rw [hs]

/-- C8 witness: the step formula and sequence determinism at seed 1. -/
theorem rand_i64_lcg_step_witness :
    ((RNG.new 1).a = 1664525 ∧ (RNG.new 1).c = 1013904223 ∧
      (RNG.new 1).m = 4294967296 ∧
      -(2 ^ 63) ≤ 1664525 * (RNG.new 1).last + 1013904223 ∧
      1664525 * (RNG.new 1).last + 1013904223 < 2 ^ 63) ∧
    (((RNG.new 1).rand_i64).1 =
        (1664525 * (RNG.new 1).last + 1013904223).tmod (2 ^ 32) ∧
      ((RNG.new 1).rand_i64).2.last = ((RNG.new 1).rand_i64).1 ∧
      (0 ≤ (RNG.new 1).last →
        ((RNG.new 1).rand_i64).1 =
          (1664525 * (RNG.new 1).last + 1013904223) % 2 ^ 32) ∧
      ∀ s1 s2 : ℤ, s1 = s2 → ∀ k, i64Seq s1 k = i64Seq s2 k) := by
  refine ⟨⟨rfl, rfl, rfl, by norm_num [RNG.new], by norm_num [RNG.new]⟩, ?_⟩
  exact rand_i64_lcg_step (RNG.new 1) rfl rfl rfl (by norm_num [RNG.new]) (by norm_num [RNG.new])

/-- C10: round trip. Whenever `data.length = m * n` (the only case in which
the `assert_eq!` in `from_vec` passes), `Matrix::from_vec` adopts the list
unchanged as backing storage and `to_vec` hands exactly it back, element for
element and in order. -/
theorem from_vec_to_vec_roundtrip (m n : ℕ) (data : List α)
    (h : data.length = m * n) :
    ∃ A : Matrix α, Matrix.from_vec m n data = .ok A ∧ A.to_vec = data := by
  refine ⟨⟨m, n, data⟩, ?_, rfl⟩
  simp [Matrix.from_vec, h]

/-- C10 witness: round trip of a concrete 2×3 buffer. -/
theorem from_vec_to_vec_roundtrip_witness :
    ([(5 : ℚ), 6, 7, 8, 9, 10].length = 2 * 3) ∧
    ∃ A : Matrix ℚ, Matrix.from_vec 2 3 [(5 : ℚ), 6, 7, 8, 9, 10] = .ok A ∧
      A.to_vec = [(5 : ℚ), 6, 7, 8, 9, 10] := by
  exact ⟨by decide, from_vec_to_vec_roundtrip 2 3 [(5 : ℚ), 6, 7, 8, 9, 10] (by decide)⟩

/-! ### C3 -/

/-- C3 counterexample: on the 2×2 matrix `[1,2; 3,4]` the checked
`Matrix::get(0, 2)` has `j = 2 ≥ cols = 2`, yet it succeeds (returning entry
`3`, the first entry of the next row) because the flat offset
`0 * 2 + 2 = 2` is still inside the 4-element buffer; no out-of-range error
is raised. -/
theorem matrix_get_in_buffer_no_error :
    (Matrix.mk 2 2 [(1 : ℚ), 2, 3, 4]).data.length =
        (Matrix.mk 2 2 [(1 : ℚ), 2, 3, 4]).m * (Matrix.mk 2 2 [(1 : ℚ), 2, 3, 4]).n ∧
    (Matrix.mk 2 2 [(1 : ℚ), 2, 3, 4]).n ≤ 2 ∧
    (Matrix.mk 2 2 [(1 : ℚ), 2, 3, 4]).get 0 2 = .ok 3 ∧
    ∃ B, (Matrix.mk 2 2 [(1 : ℚ), 2, 3, 4]).set 0 2 9 = .ok B := by
  exact ⟨by decide, by decide, rfl, ⟨Matrix.mk 2 2 [(1 : ℚ), 2, 9, 4], rfl⟩⟩

/-- C3 amended: `MatrixView` and `MatrixViewMut` (with well-formed row
structure) reject every index pair with `i ≥ rows` or `j ≥ cols` through the
checked path — `get` and the mutable view's `set` raise the out-of-range
panic, and the read-only view's `set` always fails (with the
invalid-operation panic rather than an out-of-range one). `Matrix`'s checked
`get`/`set`, however, index the flat buffer and fail exactly when the flat
offset `i * cols + j` falls outside it, so an index pair with `j ≥ cols`
whose flat offset stays inside the buffer succeeds and aliases another
entry instead of failing. -/
theorem checked_bounds_amended (A : Matrix α) (v : MatrixView α)
    (w : MatrixViewMut α) (i j : ℕ) (x : α)
    (hv : Rect v.m v.n v.data) (hw : Rect w.m w.n w.data) :
    (A.data.length ≤ i * A.n + j →
      A.get i j = .error "index out of bounds" ∧
      A.set i j x = .error "index out of bounds") ∧
    (i * A.n + j < A.data.length →
      (∃ y, A.get i j = .ok y) ∧ ∃ B, A.set i j x = .ok B) ∧
    (v.m ≤ i ∨ v.n ≤ j → v.get i j = .error "index out of bounds") ∧
    v.set i j x = .error "cannot set entries with MatrixView" ∧
    (w.m ≤ i ∨ w.n ≤ j →
      w.get i j = .error "index out of bounds" ∧
      w.set i j x = .error "index out of bounds") := by
  obtain ⟨hvl, hvr⟩ := hv
  obtain ⟨hwl, hwr⟩ := hw
  refine ⟨?_, ?_, ?_, rfl, ?_⟩
  · intro h
    constructor
    · unfold Matrix.get
      rw [List.getElem?_eq_none h]
    · unfold Matrix.set
      rw [if_neg (by omega)]
  · intro h
    constructor
    · exact ⟨A.data[i * A.n + j], by unfold Matrix.get; rw [List.getElem?_eq_getElem h]⟩
    · exact ⟨_, by unfold Matrix.set; rw [if_pos h]⟩
  · intro h
    rcases h with h | h
    · unfold MatrixView.get
      rw [List.getElem?_eq_none (by omega)]
    · cases hvi : v.data[i]? with
      | none => unfold MatrixView.get; rw [hvi]
      | some r =>
        have hr : r.length = v.n := hvr r (List.getElem?_mem hvi)
        have hj : r[j]? = none := List.getElem?_eq_none (by omega)
        unfold MatrixView.get
        simp only [hvi, hj]
  · intro h
    rcases h with h | h
    · constructor
      · unfold MatrixViewMut.get
        rw [List.getElem?_eq_none (by omega)]
      · unfold MatrixViewMut.set
        rw [List.getElem?_eq_none (by omega)]
    · constructor
      · cases hwi : w.data[i]? with
        | none => unfold MatrixViewMut.get; rw [hwi]
        | some r =>
          have hr : r.length = w.n := hwr r (List.getElem?_mem hwi)
          have hj : r[j]? = none := List.getElem?_eq_none (by omega)
          unfold MatrixViewMut.get
          simp only [hwi, hj]
      · cases hwi : w.data[i]? with
        | none => unfold MatrixViewMut.set; rw [hwi]
        | some r =>
          have hr : r.length = w.n := hwr r (List.getElem?_mem hwi)
          unfold MatrixViewMut.set
          simp only [hwi]
          rw [if_neg (by omega)]

/-- C3 witness: the amended bounds behaviour at a concrete 2×2 matrix and
2×2 views, index pair (0, 2). -/
theorem checked_bounds_amended_witness :
    (Rect (MatrixView.mk 2 2 [[(1 : ℚ), 2], [3, 4]]).m
        (MatrixView.mk 2 2 [[(1 : ℚ), 2], [3, 4]]).n
        (MatrixView.mk 2 2 [[(1 : ℚ), 2], [3, 4]]).data ∧
      Rect (MatrixViewMut.mk 2 2 [[(1 : ℚ), 2], [3, 4]]).m
        (MatrixViewMut.mk 2 2 [[(1 : ℚ), 2], [3, 4]]).n
        (MatrixViewMut.mk 2 2 [[(1 : ℚ), 2], [3, 4]]).data) ∧
    (((Matrix.mk 2 2 [(1 : ℚ), 2, 3, 4]).data.length ≤ 0 * 2 + 2 →
        (Matrix.mk 2 2 [(1 : ℚ), 2, 3, 4]).get 0 2 = .error "index out of bounds" ∧
        (Matrix.mk 2 2 [(1 : ℚ), 2, 3, 4]).set 0 2 9 = .error "index out of bounds") ∧
      (0 * 2 + 2 < (Matrix.mk 2 2 [(1 : ℚ), 2, 3, 4]).data.length →
        (∃ y, (Matrix.mk 2 2 [(1 : ℚ), 2, 3, 4]).get 0 2 = .ok y) ∧
        ∃ B, (Matrix.mk 2 2 [(1 : ℚ), 2, 3, 4]).set 0 2 9 = .ok B) ∧
      ((MatrixView.mk 2 2 [[(1 : ℚ), 2], [3, 4]]).m ≤ 0 ∨
          (MatrixView.mk 2 2 [[(1 : ℚ), 2], [3, 4]]).n ≤ 2 →
        (MatrixView.mk 2 2 [[(1 : ℚ), 2], [3, 4]]).get 0 2 =
          .error "index out of bounds") ∧
      (MatrixView.mk 2 2 [[(1 : ℚ), 2], [3, 4]]).set 0 2 9 =
        .error "cannot set entries with MatrixView" ∧
      ((MatrixViewMut.mk 2 2 [[(1 : ℚ), 2], [3, 4]]).m ≤ 0 ∨
          (MatrixViewMut.mk 2 2 [[(1 : ℚ), 2], [3, 4]]).n ≤ 2 →
        (MatrixViewMut.mk 2 2 [[(1 : ℚ), 2], [3, 4]]).get 0 2 =
          .error "index out of bounds" ∧
        (MatrixViewMut.mk 2 2 [[(1 : ℚ), 2], [3, 4]]).set 0 2 9 =
          .error "index out of bounds")) := by
  refine ⟨⟨by decide, by decide⟩, ?_⟩
  exact checked_bounds_amended (Matrix.mk 2 2 [(1 : ℚ), 2, 3, 4])
    (MatrixView.mk 2 2 [[(1 : ℚ), 2], [3, 4]])
    (MatrixViewMut.mk 2 2 [[(1 : ℚ), 2], [3, 4]]) 0 2 9 (by decide) (by decide)

/-! ### C9 and C4 -/

/-- For a generator with the source's LCG constants and a state in
`[0, 2^32)` — every state reachable after one step and every reasonably
seeded generator — `rand_i64` yields a value again in `[0, 2^32)` and a
successor generator with the same constants and that value as state. -/
theorem rand_i64_state (r : RNG) (ha : r.a = 1664525) (hc : r.c = 1013904223)
    (hm : r.m = 4294967296) (h0 : 0 ≤ r.last) (h1 : r.last < 2 ^ 32) :
    0 ≤ (r.rand_i64).1 ∧ (r.rand_i64).1 < 2 ^ 32 ∧
    (r.rand_i64).2.a = 1664525 ∧ (r.rand_i64).2.c = 1013904223 ∧
    (r.rand_i64).2.m = 4294967296 ∧ (r.rand_i64).2.last = (r.rand_i64).1 := by
  have hnn : 0 ≤ r.a * r.last + r.c := by rw [ha, hc]; positivity
  have hmul : (1664525 : ℤ) * r.last < 1664525 * 2 ^ 32 :=
    mul_lt_mul_of_pos_left h1 (by norm_num)
  have hub : r.a * r.last + r.c < 2 ^ 63 := by
    rw [ha, hc]
    have hconst : (1664525 : ℤ) * 2 ^ 32 + 1013904223 < 2 ^ 63 := by norm_num
    linarith
  have hw : wrap64 (r.a * r.last + r.c) = r.a * r.last + r.c :=
    wrap64_eq_self (by linarith) hub
  refine ⟨?_, ?_, ha, hc, hm, rfl⟩
  · show 0 ≤ (wrap64 (r.a * r.last + r.c)).tmod r.m
    rw [hw]
    exact Int.tmod_nonneg _ hnn
  · show (wrap64 (r.a * r.last + r.c)).tmod r.m < 2 ^ 32
    rw [hw, hm]
    exact lt_of_lt_of_le (Int.tmod_lt_of_pos _ (by norm_num)) (by norm_num)

/-- C9 amended: for every generator with the source's LCG constants and a
non-negative state below `2^32` (every state reachable after one draw, and
every generator seeded with such a value — for states whose first draw is
negative the `try_into` of the exponent panics instead), `rand_f64` computes
`exp = rand_i64() % 16`, `den = 2^exp`, `num = rand_i64() % den`, returns
`num / den` — exact in f64, embedded as the rational — together with the
twice-stepped generator, and the value lies in `[0, 1)`. -/
theorem rand_f64_spec (r : RNG) (ha : r.a = 1664525) (hc : r.c = 1013904223)
    (hm : r.m = 4294967296) (h0 : 0 ≤ r.last) (h1 : r.last < 2 ^ 32) :
    r.rand_f64 = some
      (((((r.rand_i64).2.rand_i64).1.tmod ((2 : ℤ) ^ ((r.rand_i64).1.tmod 16).toNat) : ℤ) : ℚ) /
        (((2 : ℤ) ^ ((r.rand_i64).1.tmod 16).toNat : ℤ) : ℚ),
        ((r.rand_i64).2.rand_i64).2) ∧
    0 ≤ ((((r.rand_i64).2.rand_i64).1.tmod ((2 : ℤ) ^ ((r.rand_i64).1.tmod 16).toNat) : ℤ) : ℚ) /
        (((2 : ℤ) ^ ((r.rand_i64).1.tmod 16).toNat : ℤ) : ℚ) ∧
    ((((r.rand_i64).2.rand_i64).1.tmod ((2 : ℤ) ^ ((r.rand_i64).1.tmod 16).toNat) : ℤ) : ℚ) /
        (((2 : ℤ) ^ ((r.rand_i64).1.tmod 16).toNat : ℤ) : ℚ) < 1 := by
  obtain ⟨h01, h11, ha1, hc1, hm1, hl1⟩ := rand_i64_state r ha hc hm h0 h1
  obtain ⟨h02, h12, _, _, _, _⟩ :=
    rand_i64_state (r.rand_i64).2 ha1 hc1 hm1 (by rw [hl1]; exact h01)
      (by rw [hl1]; exact h11)
  have hexp : 0 ≤ ((r.rand_i64).1.tmod 16) := Int.tmod_nonneg _ h01
  have hden : (0 : ℤ) < (2 : ℤ) ^ ((r.rand_i64).1.tmod 16).toNat := by positivity
  have hnum0 : 0 ≤ ((r.rand_i64).2.rand_i64).1.tmod ((2 : ℤ) ^ ((r.rand_i64).1.tmod 16).toNat) :=
    Int.tmod_nonneg _ h02
  have hnumlt :
      ((r.rand_i64).2.rand_i64).1.tmod ((2 : ℤ) ^ ((r.rand_i64).1.tmod 16).toNat) <
        (2 : ℤ) ^ ((r.rand_i64).1.tmod 16).toNat :=
    Int.tmod_lt_of_pos _ hden
  refine ⟨?_, ?_, ?_⟩
  · show (if 0 ≤ ((r.rand_i64).1.tmod 16) then
        some
          (((((r.rand_i64).2.rand_i64).1.tmod
              ((2 : ℤ) ^ ((r.rand_i64).1.tmod 16).toNat) : ℤ) : ℚ) /
            (((2 : ℤ) ^ ((r.rand_i64).1.tmod 16).toNat : ℤ) : ℚ),
            ((r.rand_i64).2.rand_i64).2)
      else none) = _
    rw [if_pos hexp]
  · exact div_nonneg (by exact_mod_cast hnum0) (by exact_mod_cast hden.le)
  · exact (div_lt_one (by exact_mod_cast hden)).mpr (by exact_mod_cast hnumlt)

/-- C9 witness: the amended `rand_f64` behaviour at `RNG::new(1)`. -/
theorem rand_f64_spec_witness :
    ((RNG.new 1).a = 1664525 ∧ (RNG.new 1).c = 1013904223 ∧
      (RNG.new 1).m = 4294967296 ∧ 0 ≤ (RNG.new 1).last ∧
      (RNG.new 1).last < 2 ^ 32) ∧
    ((RNG.new 1).rand_f64 = some
      ((((((RNG.new 1).rand_i64).2.rand_i64).1.tmod
          ((2 : ℤ) ^ (((RNG.new 1).rand_i64).1.tmod 16).toNat) : ℤ) : ℚ) /
        (((2 : ℤ) ^ (((RNG.new 1).rand_i64).1.tmod 16).toNat : ℤ) : ℚ),
        (((RNG.new 1).rand_i64).2.rand_i64).2) ∧
      0 ≤ (((((RNG.new 1).rand_i64).2.rand_i64).1.tmod
          ((2 : ℤ) ^ (((RNG.new 1).rand_i64).1.tmod 16).toNat) : ℤ) : ℚ) /
        (((2 : ℤ) ^ (((RNG.new 1).rand_i64).1.tmod 16).toNat : ℤ) : ℚ) ∧
      (((((RNG.new 1).rand_i64).2.rand_i64).1.tmod
          ((2 : ℤ) ^ (((RNG.new 1).rand_i64).1.tmod 16).toNat) : ℤ) : ℚ) /
        (((2 : ℤ) ^ (((RNG.new 1).rand_i64).1.tmod 16).toNat : ℤ) : ℚ) < 1) := by
  refine ⟨⟨rfl, rfl, rfl, by norm_num [RNG.new], by norm_num [RNG.new]⟩, ?_⟩
  exact rand_f64_spec (RNG.new 1) rfl rfl rfl (by norm_num [RNG.new])
    (by norm_num [RNG.new])

/-- C9 counterexample: `RNG::new(-1000)` is a legal generator, but its first
`rand_i64` draw is the negative value -650620777, so `exp = -9` and the
`try_into::<u32>` conversion inside `rand_f64` panics ("failed to unwrap
exponent value") instead of returning a float64 in `[0, 1)`. -/
theorem rand_f64_negative_seed_panics :
    (RNG.new (-1000)).rand_f64 = none ∧
    ((RNG.new (-1000)).rand_i64).1 = -650620777 := by
  constructor
  · decide
  · decide

/-- A rational of the form `a / 2^e` is never `1/3`: its denominator divides
a power of two, while `1/3` has denominator 3. -/
theorem div_pow_two_ne_third (a : ℤ) (e : ℕ) :
    ((a : ℚ) / (((2 : ℤ) ^ e : ℤ) : ℚ)) ≠ 1 / 3 := by
  intro hcontra
  have h1 : (((Rat.divInt a ((2 : ℤ) ^ e)).den : ℤ)) ∣ (2 : ℤ) ^ e := Rat.den_dvd _ _
  rw [Rat.divInt_eq_div, hcontra] at h1
  have h2 : ((1 : ℚ) / 3).den = 3 := by norm_num [Rat.den]
  rw [h2] at h1
  have h3 : (3 : ℕ) ∣ 2 ^ e := by exact_mod_cast h1
  exact absurd (Nat.Prime.dvd_of_dvd_pow Nat.prime_three h3) (by decide)

/-- C4 counterexample: `Matrix::rand` fills the buffer from the external
`rand` crate's thread-local generator, not from the repository's
deterministic `RNG`. The crate's `random::<f64>()` contract only promises a
value in `[0, 1)`; under the draw stream constantly `1/3` (a legal such
value) the resulting 1×1 matrix holds the entry `1/3`, yet no state of the
repository's `RNG` can ever make `rand_f64` return `1/3`, because every
`rand_f64` output is a dyadic rational `num / 2^exp`. So the entries are not
produced by the deterministic RandomSource's `nextFloat64`. -/
theorem rand_not_from_rng :
    (Matrix.rand 1 1 (fun _ => (1 : ℚ) / 3)).data = [(1 : ℚ) / 3] ∧
    (0 ≤ (1 : ℚ) / 3 ∧ (1 : ℚ) / 3 < 1) ∧
    ∀ (r : RNG) (q : ℚ) (r' : RNG), r.rand_f64 = some (q, r') → q ≠ 1 / 3 := by
  refine ⟨by simp [Matrix.rand, List.range_succ], ⟨by norm_num, by norm_num⟩, ?_⟩
  intro r q r' h hq
  simp only [RNG.rand_f64] at h
  split at h
  · simp only [Option.some.injEq, Prod.mk.injEq] at h
    obtain ⟨hq', _⟩ := h
    exact div_pow_two_ne_third _ _ (by rw [hq', hq])
  · exact Option.noConfusion h

/-- C4 amended: `Matrix::rand(m, n)` draws one value per entry from the
external `rand` crate's thread-local generator — modelled as the draw stream
`s` — making exactly `m * n` draws, assigned in row-major order (entry
`(i, j)` receives draw number `i * n + j`); under the crate's contract that
each draw lies in `[0, 1)`, every entry of the result lies in `[0, 1)`. The
repository's own deterministic `RNG` is not involved. -/
theorem rand_fills_row_major (m n : ℕ) (s : ℕ → ℚ)
    (hs : ∀ k, 0 ≤ s k ∧ s k < 1) :
    (Matrix.rand m n s).data = (List.range (m * n)).map s ∧
    (Matrix.rand m n s).data.length = m * n ∧
    (∀ i j, i < m → j < n →
      (Matrix.rand m n s).data[i * n + j]? = some (s (i * n + j))) ∧
    ∀ x ∈ (Matrix.rand m n s).data, 0 ≤ x ∧ x < 1 := by
  refine ⟨rfl, by simp [Matrix.rand], ?_, ?_⟩
  · intro i j hi hj
    have h3 : i * n + j < i * n + n := Nat.add_lt_add_left hj _
    have h4 : i * n + n = (i + 1) * n := by ring
    have h2 : (i + 1) * n ≤ m * n := Nat.mul_le_mul_right n hi
    have hlt : i * n + j < m * n := lt_of_lt_of_le (h4 ▸ h3) h2
    simp [Matrix.rand, List.getElem?_range hlt]
  · intro x hx
    simp only [Matrix.rand, List.mem_map] at hx
    obtain ⟨k, _, rfl⟩ := hx
    exact hs k

/-- C4 witness: the amended fill behaviour for a 1×2 matrix under the
constant draw stream `1/2`. -/
theorem rand_fills_row_major_witness :
    (∀ k : ℕ, 0 ≤ (fun _ : ℕ => (1 : ℚ) / 2) k ∧ (fun _ : ℕ => (1 : ℚ) / 2) k < 1) ∧
    ((Matrix.rand 1 2 (fun _ => (1 : ℚ) / 2)).data =
        (List.range (1 * 2)).map (fun _ => (1 : ℚ) / 2) ∧
      (Matrix.rand 1 2 (fun _ => (1 : ℚ) / 2)).data.length = 1 * 2 ∧
      (∀ i j, i < 1 → j < 2 →
        (Matrix.rand 1 2 (fun _ => (1 : ℚ) / 2)).data[i * 2 + j]? =
          some ((fun _ : ℕ => (1 : ℚ) / 2) (i * 2 + j))) ∧
      ∀ x ∈ (Matrix.rand 1 2 (fun _ => (1 : ℚ) / 2)).data, 0 ≤ x ∧ x < 1) := by
  refine ⟨fun k => ⟨by norm_num, by norm_num⟩, ?_⟩
  exact rand_fills_row_major 1 2 (fun _ => (1 : ℚ) / 2)
    (fun k => ⟨by norm_num, by norm_num⟩)

/-! ### Entry and update lemmas for the loop embeddings -/

theorem length_setE (d : List (List α)) (i j : ℕ) (x : α) :
    (setE d i j x).length = d.length := by
  simp [setE]

theorem getE_setE_ne (z : α) (d : List (List α)) (i j i' j' : ℕ) (x : α)
    (h : i' ≠ i ∨ j' ≠ j) :
    getE z (setE d i j x) i' j' = getE z d i' j' := by
  by_cases hi : i' = i
  · subst hi
    have hj : j' ≠ j := h.resolve_left (fun hh => hh rfl)
    by_cases hlen : i' < d.length
    · have hrow : (setE d i' j x).getD i' [] = (d.getD i' []).set j x := by
        unfold setE
        rw [List.getD_eq_getElem?_getD, List.getElem?_set_self hlen, Option.getD_some]
      unfold getE
      rw [hrow, List.getD_eq_getElem?_getD,
        List.getElem?_set_ne (fun hh => hj hh.symm)]
      exact (List.getD_eq_getElem?_getD _ _ _).symm
    · unfold setE
      rw [List.set_eq_of_length_le (le_of_not_lt hlen)]
  · have hrow : (setE d i j x).getD i' [] = d.getD i' [] := by
      unfold setE
      rw [List.getD_eq_getElem?_getD, List.getElem?_set_ne (fun hh => hi hh.symm)]
      exact (List.getD_eq_getElem?_getD _ _ _).symm
    unfold getE
    rw [hrow]

theorem getE_setE_self (z : α) (d : List (List α)) (i j : ℕ) (x : α)
    (hi : i < d.length) (hj : j < (d.getD i []).length) :
    getE z (setE d i j x) i j = x := by
  have hrow : (setE d i j x).getD i [] = (d.getD i []).set j x := by
    unfold setE
    rw [List.getD_eq_getElem?_getD, List.getElem?_set_self hi, Option.getD_some]
  unfold getE
  rw [hrow, List.getD_eq_getElem?_getD, List.getElem?_set_self hj, Option.getD_some]

theorem rect_row_length {m n : ℕ} {d : List (List α)} (hd : Rect m n d) {i : ℕ}
    (hi : i < m) : (d.getD i []).length = n := by
  obtain ⟨hl, hr⟩ := hd
  have hlen : i < d.length := by omega
  have hgd : d.getD i [] = d[i] := by
    rw [List.getD_eq_getElem?_getD, List.getElem?_eq_getElem hlen, Option.getD_some]
  rw [hgd]
  exact hr _ (List.getElem_mem hlen)

theorem rect_setE {m n : ℕ} {d : List (List α)} (hd : Rect m n d) (i j : ℕ) (x : α) :
    Rect m n (setE d i j x) := by
  obtain ⟨hl, hr⟩ := hd
  constructor
  · simp [setE, hl]
  · intro r hrmem
    by_cases hi : i < d.length
    · rcases List.mem_or_eq_of_mem_set hrmem with hmem | rfl
      · exact hr r hmem
      · rw [List.length_set]
        apply hr
        have hgd : d.getD i [] = d[i] := by
          rw [List.getD_eq_getElem?_getD, List.getElem?_eq_getElem hi, Option.getD_some]
        rw [hgd]
        exact List.getElem_mem hi
    · rw [setE, List.set_eq_of_length_le (le_of_not_lt hi)] at hrmem
      exact hr r hrmem

/-- Entries outside the written row/columns are unchanged by the inner
column loop writing row `r`. -/
theorem rowFold_other (z : α) (g : ℕ → α → α) (r : ℕ) (l : List ℕ)
    (d : List (List α)) (i' j' : ℕ) (h : i' ≠ r ∨ j' ∉ l) :
    getE z (l.foldl (fun d' j => setE d' r j (g j (getE z d' r j))) d) i' j' =
      getE z d i' j' := by
  induction l generalizing d with
  | nil => rfl
  | cons jh t ih =>
    rw [List.foldl_cons]
    rcases h with h | h
    · rw [ih _ (Or.inl h), getE_setE_ne z d r jh i' j' _ (Or.inl h)]
    · have h1 : j' ≠ jh := fun hh => h (hh ▸ List.mem_cons_self jh t)
      have h2 : j' ∉ t := fun hh => h (List.mem_cons_of_mem jh hh)
      rw [ih _ (Or.inr h2), getE_setE_ne z d r jh i' j' _ (Or.inr h1)]

theorem rowFold_rect {m n : ℕ} (z : α) (g : ℕ → α → α) (r : ℕ) (l : List ℕ)
    {d : List (List α)} (hd : Rect m n d) :
    Rect m n (l.foldl (fun d' j => setE d' r j (g j (getE z d' r j))) d) := by
  induction l generalizing d with
  | nil => exact hd
  | cons jh t ih => exact ih (rect_setE hd r jh _)

/-- The inner column loop writing row `r` over a duplicate-free index list
updates each listed in-range entry once, through `g`. -/
theorem rowFold_entry {m n : ℕ} (z : α) (g : ℕ → α → α) (r : ℕ) (l : List ℕ)
    {d : List (List α)} (hd : Rect m n d) (j : ℕ) (hi : r < m) (hj : j < n)
    (hmem : j ∈ l) (hnd : l.Nodup) :
    getE z (l.foldl (fun d' j' => setE d' r j' (g j' (getE z d' r j'))) d) r j =
      g j (getE z d r j) := by
  induction l generalizing d with
  | nil => exact absurd hmem (List.not_mem_nil j)
  | cons jh t ih =>
    rw [List.foldl_cons]
    by_cases hjh : j = jh
    · subst hjh
      have hnot : j ∉ t := (List.nodup_cons.mp hnd).1
      rw [rowFold_other z g r t _ r j (Or.inr hnot)]
      exact getE_setE_self z d r j _ (by obtain ⟨hl, _⟩ := hd; omega)
        (by rw [rect_row_length hd hi]; exact hj)
    · have hmem' : j ∈ t := by
        rcases List.mem_cons.mp hmem with h | h
        · exact absurd h hjh
        · exact h
      rw [ih (rect_setE hd r jh _) hmem' (List.nodup_cons.mp hnd).2,
        getE_setE_ne z d r jh r j _ (Or.inr hjh)]

/-- A fold of row bodies leaves entry `(i, j)` untouched if no processed
row body can change it. -/
theorem foldl_rows_other (z : α) (body : List (List α) → ℕ → List (List α))
    (l : List ℕ) (d : List (List α)) (i j : ℕ)
    (hb : ∀ d' i', i' ≠ i → getE z (body d' i') i j = getE z d' i j)
    (hni : i ∉ l) :
    getE z (l.foldl body d) i j = getE z d i j := by
  induction l generalizing d with
  | nil => rfl
  | cons ihd t ihl =>
    rw [List.foldl_cons]
    have h1 : ihd ≠ i := fun hh => hni (hh ▸ List.mem_cons_self ihd t)
    rw [ihl _ (fun hh => hni (List.mem_cons_of_mem ihd hh)), hb d ihd h1]

theorem foldl_rows_rect {m n : ℕ} (body : List (List α) → ℕ → List (List α))
    (l : List ℕ) {d : List (List α)} (hd : Rect m n d)
    (hb : ∀ d' i', Rect m n d' → Rect m n (body d' i')) :
    Rect m n (l.foldl body d) := by
  induction l generalizing d with
  | nil => exact hd
  | cons ihd t ihl => exact ihl (hb d ihd hd)

/-- After the zero-initialization double loop, every in-range entry whose
row is in the (duplicate-free) outer index list is `z`. -/
theorem zeroPass_entry {m n : ℕ} (z : α) (l : List ℕ) {d : List (List α)}
    (hd : Rect m n d) (i j : ℕ) (hi : i < m) (hj : j < n)
    (hmem : i ∈ l) (hnd : l.Nodup) :
    getE z (l.foldl
      (fun d' i' => (List.range n).foldl (fun d'' j' => setE d'' i' j' z) d') d)
      i j = z := by
  induction l generalizing d with
  | nil => exact absurd hmem (List.not_mem_nil i)
  | cons ihd t ihl =>
    rw [List.foldl_cons]
    by_cases hih : i = ihd
    · subst hih
      have hnot : i ∉ t := (List.nodup_cons.mp hnd).1
      have hbz : ∀ (d' : List (List α)) (i' : ℕ), i' ≠ i →
          getE z ((List.range n).foldl (fun d'' j' => setE d'' i' j' z) d') i j =
            getE z d' i j := by
        intro d' i' hne
        exact rowFold_other z (fun _ _ => z) i' (List.range n) d' i j
          (Or.inl (fun hh => hne hh.symm))
      rw [foldl_rows_other z _ t _ i j hbz hnot]
      exact rowFold_entry z (fun _ _ => z) i (List.range n) hd j hi hj
        (List.mem_range.mpr hj) (List.nodup_range n)
    · have hmem' : i ∈ t := by
        rcases List.mem_cons.mp hmem with h | h
        · exact absurd h hih
        · exact h
      exact ihl (rowFold_rect z (fun _ _ => z) ihd (List.range n) hd) hmem'
        (List.nodup_cons.mp hnd).2

/-- The middle k-loop at fixed row `i` accumulates into entry `(i, j)`
exactly the left fold of the increments `w k j`, in k order. -/
theorem kLoop_entry {m n : ℕ} (z : α) (add : α → α → α) (w : ℕ → ℕ → α)
    (i : ℕ) (lk : List ℕ) {d : List (List α)} (hd : Rect m n d)
    (j : ℕ) (hi : i < m) (hj : j < n) :
    getE z (lk.foldl
      (fun d' k => (List.range n).foldl
        (fun d'' j' => setE d'' i j' (add (getE z d'' i j') (w k j'))) d') d) i j =
      lk.foldl (fun acc k => add acc (w k j)) (getE z d i j) := by
  induction lk generalizing d with
  | nil => rfl
  | cons kh t ihk =>
    rw [List.foldl_cons, List.foldl_cons]
    rw [ihk (rowFold_rect z (fun j' v => add v (w kh j')) i (List.range n) hd)]
    congr 1
    exact rowFold_entry z (fun j' v => add v (w kh j')) i (List.range n) hd j hi hj
      (List.mem_range.mpr hj) (List.nodup_range n)

theorem kLoop_other (n : ℕ) (z : α) (add : α → α → α) (w : ℕ → ℕ → α)
    (r : ℕ) (lk : List ℕ) (d : List (List α)) (i j : ℕ) (h : i ≠ r) :
    getE z (lk.foldl
      (fun d' k => (List.range n).foldl
        (fun d'' j' => setE d'' r j' (add (getE z d'' r j') (w k j'))) d') d) i j =
      getE z d i j := by
  induction lk generalizing d with
  | nil => rfl
  | cons kh t ihk =>
    rw [List.foldl_cons, ihk _]
    exact rowFold_other z (fun j' v => add v (w kh j')) r (List.range n) d i j
      (Or.inl h)

theorem kLoop_rect {m n : ℕ} (z : α) (add : α → α → α) (w : ℕ → ℕ → α)
    (r : ℕ) (lk : List ℕ) {d : List (List α)} (hd : Rect m n d) :
    Rect m n (lk.foldl
      (fun d' k => (List.range n).foldl
        (fun d'' j' => setE d'' r j' (add (getE z d'' r j') (w k j'))) d') d) := by
  induction lk generalizing d with
  | nil => exact hd
  | cons kh t ihk =>
    exact ihk (rowFold_rect z (fun j' v => add v (w kh j')) r (List.range n) hd)

/-- The full i-k-j accumulation loop nest: entry `(i, j)` ends as the left
fold of the increments `w i k j` over the k list, started from its value
before the nest. -/
theorem accPass_entry {m n : ℕ} (z : α) (add : α → α → α) (w : ℕ → ℕ → ℕ → α)
    (lk : List ℕ) (l : List ℕ) {d : List (List α)} (hd : Rect m n d)
    (i j : ℕ) (hi : i < m) (hj : j < n) (hmem : i ∈ l) (hnd : l.Nodup) :
    getE z (l.foldl
      (fun d' i' => lk.foldl
        (fun d'' k => (List.range n).foldl
          (fun d3 j' => setE d3 i' j' (add (getE z d3 i' j') (w i' k j'))) d'') d') d)
      i j =
      lk.foldl (fun acc k => add acc (w i k j)) (getE z d i j) := by
  induction l generalizing d with
  | nil => exact absurd hmem (List.not_mem_nil i)
  | cons ihd t ihl =>
    rw [List.foldl_cons]
    by_cases hih : i = ihd
    · subst hih
      have hnot : i ∉ t := (List.nodup_cons.mp hnd).1
      have hbz : ∀ (d' : List (List α)) (i' : ℕ), i' ≠ i →
          getE z (lk.foldl
            (fun d'' k => (List.range n).foldl
              (fun d3 j' => setE d3 i' j' (add (getE z d3 i' j') (w i' k j'))) d'') d')
            i j = getE z d' i j := by
        intro d' i' hne
        exact kLoop_other n z add (w i') i' lk d' i j (fun hh => hne hh.symm)
      rw [foldl_rows_other z _ t _ i j hbz hnot]
      exact kLoop_entry z add (w i) i lk hd j hi hj
    · have hmem' : i ∈ t := by
        rcases List.mem_cons.mp hmem with h | h
        · exact absurd h hih
        · exact h
      rw [ihl (kLoop_rect z add (w ihd) ihd lk hd) hmem' (List.nodup_cons.mp hnd).2,
        kLoop_other n z add (w ihd) ihd lk d i j hih]

/-- C1: for dimension-compatible views (`a.m = c.m`, `a.n = b.m`,
`b.n = c.n`, with `c` well-shaped), `matmul(a, b, c)` succeeds and every
entry `c[i][j]` (`i < c.m`, `j < c.n`) equals the left-to-right accumulation
of `a[i][k] * b[k][j]` for `k = 0 .. a.n-1` starting from the zero `z` — the
i-k-j loop order touches each entry once per `k`, in increasing `k`. The
arithmetic `(z, add, mul)` is abstract, so the statement pins the exact
operation order an IEEE-754 f64 evaluation would perform. The initial
contents of `c` are arbitrary (only its shape is constrained) and the
right-hand side does not mention them: the result is independent of the
contents of `c` before the call. -/
theorem matmul_entries (z : α) (add mul : α → α → α) (a b : MatrixView α)
    (c : MatrixViewMut α) (hac : a.m = c.m) (hab : a.n = b.m) (hbc : b.n = c.n)
    (hc : Rect c.m c.n c.data) (i j : ℕ) (hi : i < c.m) (hj : j < c.n) :
    ∃ c' : MatrixViewMut α, matmul z add mul a b c = .ok c' ∧
      getE z c'.data i j =
        (List.range a.n).foldl
          (fun acc k => add acc (mul (getE z a.data i k) (getE z b.data k j))) z := by
  have hmain :
      getE z ((List.range a.m).foldl
        (fun d' i' => (List.range a.n).foldl
          (fun d'' k => (List.range b.n).foldl
            (fun d3 j' => setE d3 i' j'
              (add (getE z d3 i' j') (mul (getE z a.data i' k) (getE z b.data k j'))))
            d'') d')
        ((List.range c.m).foldl
          (fun d' i' => (List.range c.n).foldl (fun d'' j' => setE d'' i' j' z) d')
          c.data)) i j =
      (List.range a.n).foldl
        (fun acc k => add acc (mul (getE z a.data i k) (getE z b.data k j))) z := by
    have hrect1 : Rect c.m c.n ((List.range c.m).foldl
        (fun d' i' => (List.range c.n).foldl (fun d'' j' => setE d'' i' j' z) d')
        c.data) :=
      foldl_rows_rect _ _ hc
        (fun d' i' hr => rowFold_rect z (fun _ _ => z) i' (List.range c.n) hr)
    have h1 : getE z ((List.range c.m).foldl
        (fun d' i' => (List.range c.n).foldl (fun d'' j' => setE d'' i' j' z) d')
        c.data) i j = z :=
      zeroPass_entry z (List.range c.m) hc i j hi hj (List.mem_range.mpr hi)
        (List.nodup_range _)
    rw [hbc]
    refine (accPass_entry z add
      (fun i' k j' => mul (getE z a.data i' k) (getE z b.data k j'))
      (List.range a.n) (List.range a.m) hrect1 i j hi hj
      (List.mem_range.mpr (by omega)) (List.nodup_range _)).trans ?_
    rw [h1]
  unfold matmul
  rw [if_neg (fun h => h hac), if_neg (fun h => h hab), if_neg (fun h => h hbc)]
  exact ⟨_, rfl, hmain⟩

/-- C1 witness: the 2×2 product at entry (0, 1) over rationals, with a
nonzero initial output buffer to exercise the zero-initialization. -/
theorem matmul_entries_witness :
    ((MatrixView.mk 2 2 [[(1 : ℚ), 2], [3, 4]]).m = (MatrixViewMut.mk 2 2 [[9, 9], [9, 9]]).m ∧
      (MatrixView.mk 2 2 [[(1 : ℚ), 2], [3, 4]]).n = (MatrixView.mk 2 2 [[(5 : ℚ), 6], [7, 8]]).m ∧
      (MatrixView.mk 2 2 [[(5 : ℚ), 6], [7, 8]]).n = (MatrixViewMut.mk 2 2 [[9, 9], [9, 9]]).n ∧
      Rect (MatrixViewMut.mk 2 2 [[(9 : ℚ), 9], [9, 9]]).m
        (MatrixViewMut.mk 2 2 [[(9 : ℚ), 9], [9, 9]]).n
        (MatrixViewMut.mk 2 2 [[(9 : ℚ), 9], [9, 9]]).data ∧
      0 < (MatrixViewMut.mk 2 2 [[(9 : ℚ), 9], [9, 9]]).m ∧
      1 < (MatrixViewMut.mk 2 2 [[(9 : ℚ), 9], [9, 9]]).n) ∧
    ∃ c' : MatrixViewMut ℚ,
      matmul (0 : ℚ) (· + ·) (· * ·) (MatrixView.mk 2 2 [[(1 : ℚ), 2], [3, 4]])
        (MatrixView.mk 2 2 [[(5 : ℚ), 6], [7, 8]])
        (MatrixViewMut.mk 2 2 [[9, 9], [9, 9]]) = .ok c' ∧
      getE (0 : ℚ) c'.data 0 1 =
        (List.range (MatrixView.mk 2 2 [[(1 : ℚ), 2], [3, 4]]).n).foldl
          (fun acc k => acc +
            getE (0 : ℚ) (MatrixView.mk 2 2 [[(1 : ℚ), 2], [3, 4]]).data 0 k *
            getE (0 : ℚ) (MatrixView.mk 2 2 [[(5 : ℚ), 6], [7, 8]]).data k 1) 0 := by
  refine ⟨⟨rfl, rfl, rfl, by decide, by decide, by decide⟩, ?_⟩
  exact matmul_entries (0 : ℚ) (· + ·) (· * ·)
    (MatrixView.mk 2 2 [[(1 : ℚ), 2], [3, 4]])
    (MatrixView.mk 2 2 [[(5 : ℚ), 6], [7, 8]])
    (MatrixViewMut.mk 2 2 [[9, 9], [9, 9]]) rfl rfl rfl (by decide) 0 1
    (by decide) (by decide)

/-! ### C6 -/

/-- Row `i` of the `view_mut` row partition is the buffer segment
`data[i*n .. i*n + n]`. -/
theorem splitRows_row (m n : ℕ) (l : List α) (i : ℕ) (hi : i < m) :
    (splitRows m n l)[i]? = some ((l.drop (i * n)).take n) := by
  induction m generalizing i l with
  | zero => omega
  | succ m ih =>
    cases i with
    | zero => simp [splitRows]
    | succ i =>
      show (l.take n :: splitRows m n (l.drop n))[i + 1]? = _
      rw [List.getElem?_cons_succ, ih (l.drop n) i (by omega), List.drop_drop]
      have harith : n + i * n = (i + 1) * n := by ring
      rw [harith]

/-- Helper: the flat row-major offset of an in-range index pair is inside
the `m * n` buffer. -/
theorem flat_index_lt {i j m n : ℕ} (hi : i < m) (hj : j < n) :
    i * n + j < m * n := by
  have h3 : i * n + j < i * n + n := Nat.add_lt_add_left hj _
  have h4 : i * n + n = (i + 1) * n := by ring
  have h2 : (i + 1) * n ≤ m * n := Nat.mul_le_mul_right n hi
  exact lt_of_lt_of_le (h4 ▸ h3) h2

/-- C6: for every matrix (with its `data.length = m * n` invariant) and all
in-range indices, row `i` of both `view()` and `view_mut()` is exactly the
segment `data[i*cols .. i*cols + cols]` of the source buffer at
view-creation time, and the views' checked `get(i, j)` returns exactly what
the owner's checked `get(i, j)` returns. -/
theorem view_refines (A : Matrix α) (hlen : A.data.length = A.m * A.n)
    (i j : ℕ) (hi : i < A.m) (hj : j < A.n) :
    A.view.data[i]? = some ((A.data.drop (i * A.n)).take A.n) ∧
    A.view_mut.data[i]? = some ((A.data.drop (i * A.n)).take A.n) ∧
    A.view.get i j = A.get i j ∧
    A.view_mut.get i j = A.get i j := by
  have hidx : i * A.n + j < A.data.length := by
    rw [hlen]; exact flat_index_lt hi hj
  have hrow_v : A.view.data[i]? = some ((A.data.drop (i * A.n)).take A.n) := by
    simp [Matrix.view, List.getElem?_range hi]
  have hrow_w : A.view_mut.data[i]? = some ((A.data.drop (i * A.n)).take A.n) :=
    splitRows_row A.m A.n A.data i hi
  have hrowj : ((A.data.drop (i * A.n)).take A.n)[j]? =
      some (A.data.get ⟨i * A.n + j, hidx⟩) := by
    rw [List.getElem?_take_of_lt hj, List.getElem?_drop]
    exact List.getElem?_eq_getElem hidx
  have hmat : A.get i j = .ok (A.data.get ⟨i * A.n + j, hidx⟩) := by
    unfold Matrix.get
    simp only [List.getElem?_eq_getElem hidx]
    rfl
  have hview : A.view.get i j = .ok (A.data.get ⟨i * A.n + j, hidx⟩) := by
    unfold MatrixView.get
    simp only [hrow_v, hrowj]
  have hviewm : A.view_mut.get i j = .ok (A.data.get ⟨i * A.n + j, hidx⟩) := by
    unfold MatrixViewMut.get
    simp only [hrow_w, hrowj]
  exact ⟨hrow_v, hrow_w, hview.trans hmat.symm, hviewm.trans hmat.symm⟩

/-- C6 witness: the view/owner agreement on a concrete 2×3 matrix at
index (1, 2). -/
theorem view_refines_witness :
    ((Matrix.mk 2 3 [(1 : ℚ), 2, 3, 4, 5, 6]).data.length =
        (Matrix.mk 2 3 [(1 : ℚ), 2, 3, 4, 5, 6]).m *
          (Matrix.mk 2 3 [(1 : ℚ), 2, 3, 4, 5, 6]).n ∧
      1 < (Matrix.mk 2 3 [(1 : ℚ), 2, 3, 4, 5, 6]).m ∧
      2 < (Matrix.mk 2 3 [(1 : ℚ), 2, 3, 4, 5, 6]).n) ∧
    ((Matrix.mk 2 3 [(1 : ℚ), 2, 3, 4, 5, 6]).view.data[1]? =
        some (((Matrix.mk 2 3 [(1 : ℚ), 2, 3, 4, 5, 6]).data.drop
          (1 * (Matrix.mk 2 3 [(1 : ℚ), 2, 3, 4, 5, 6]).n)).take
          (Matrix.mk 2 3 [(1 : ℚ), 2, 3, 4, 5, 6]).n) ∧
      (Matrix.mk 2 3 [(1 : ℚ), 2, 3, 4, 5, 6]).view_mut.data[1]? =
        some (((Matrix.mk 2 3 [(1 : ℚ), 2, 3, 4, 5, 6]).data.drop
          (1 * (Matrix.mk 2 3 [(1 : ℚ), 2, 3, 4, 5, 6]).n)).take
          (Matrix.mk 2 3 [(1 : ℚ), 2, 3, 4, 5, 6]).n) ∧
      (Matrix.mk 2 3 [(1 : ℚ), 2, 3, 4, 5, 6]).view.get 1 2 =
        (Matrix.mk 2 3 [(1 : ℚ), 2, 3, 4, 5, 6]).get 1 2 ∧
      (Matrix.mk 2 3 [(1 : ℚ), 2, 3, 4, 5, 6]).view_mut.get 1 2 =
        (Matrix.mk 2 3 [(1 : ℚ), 2, 3, 4, 5, 6]).get 1 2) := by
  refine ⟨⟨by decide, by decide, by decide⟩, ?_⟩
  exact view_refines (Matrix.mk 2 3 [(1 : ℚ), 2, 3, 4, 5, 6]) (by decide) 1 2
    (by decide) (by decide)

/-! ### C5 -/

theorem getD_set_ne1 (u : List α) (r i' : ℕ) (x z : α) (h : i' ≠ r) :
    (u.set r x).getD i' z = u.getD i' z := by
  rw [List.getD_eq_getElem?_getD, List.getElem?_set_ne (fun hh => h hh.symm)]
  exact (List.getD_eq_getElem?_getD _ _ _).symm

theorem getD_set_self1 (u : List α) (r : ℕ) (x z : α) (h : r < u.length) :
    (u.set r x).getD r z = x := by
  rw [List.getD_eq_getElem?_getD, List.getElem?_set_self h, Option.getD_some]

theorem foldl_set1_length (z : α) (add : α → α → α) (w : ℕ → α) (r : ℕ)
    (l : List ℕ) (u : List α) :
    (l.foldl (fun u' j => u'.set r (add (u'.getD r z) (w j))) u).length =
      u.length := by
  induction l generalizing u with
  | nil => rfl
  | cons jh t ih => rw [List.foldl_cons, ih, List.length_set]

theorem foldl_set1_other (z : α) (add : α → α → α) (w : ℕ → α) (r : ℕ)
    (l : List ℕ) (u : List α) (i' : ℕ) (h : i' ≠ r) :
    (l.foldl (fun u' j => u'.set r (add (u'.getD r z) (w j))) u).getD i' z =
      u.getD i' z := by
  induction l generalizing u with
  | nil => rfl
  | cons jh t ih => rw [List.foldl_cons, ih _, getD_set_ne1 _ _ _ _ _ h]

theorem foldl_set1_entry (z : α) (add : α → α → α) (w : ℕ → α) (r : ℕ)
    (l : List ℕ) (u : List α) (h : r < u.length) :
    (l.foldl (fun u' j => u'.set r (add (u'.getD r z) (w j))) u).getD r z =
      l.foldl (fun acc j => add acc (w j)) (u.getD r z) := by
  induction l generalizing u with
  | nil => rfl
  | cons jh t ih =>
    rw [List.foldl_cons, List.foldl_cons,
      ih _ (by rw [List.length_set]; exact h), getD_set_self1 _ _ _ _ h]

theorem foldl_entries_other (z : α) (body : List α → ℕ → List α) (l : List ℕ)
    (u : List α) (i : ℕ)
    (hb : ∀ u' i', i' ≠ i → (body u' i').getD i z = u'.getD i z)
    (hni : i ∉ l) :
    (l.foldl body u).getD i z = u.getD i z := by
  induction l generalizing u with
  | nil => rfl
  | cons ihd t ihl =>
    rw [List.foldl_cons]
    have h1 : ihd ≠ i := fun hh => hni (hh ▸ List.mem_cons_self ihd t)
    rw [ihl _ (fun hh => hni (List.mem_cons_of_mem ihd hh)), hb u ihd h1]

theorem matvec_rows_length (z : α) (add : α → α → α) (inc : ℕ → ℕ → α) (N : ℕ)
    (l : List ℕ) (u : List α) :
    (l.foldl (fun w i' => (List.range N).foldl
      (fun w' j => w'.set i' (add (w'.getD i' z) (inc i' j))) (w.set i' z)) u).length =
      u.length := by
  induction l generalizing u with
  | nil => rfl
  | cons ihd t ihl =>
    rw [List.foldl_cons, ihl _,
      foldl_set1_length z add (inc ihd) ihd (List.range N) (u.set ihd z),
      List.length_set]

/-- The per-row zero-then-accumulate loop of the (spec-modelled)
`matvecmul`: the entry at each processed row ends as the left fold of the
increments over the column range, started from zero. -/
theorem matvec_rows_entry (z : α) (add : α → α → α) (inc : ℕ → ℕ → α) (N : ℕ)
    (l : List ℕ) (u : List α) (i : ℕ) (hi : i < u.length)
    (hmem : i ∈ l) (hnd : l.Nodup) :
    (l.foldl (fun w i' => (List.range N).foldl
      (fun w' j => w'.set i' (add (w'.getD i' z) (inc i' j))) (w.set i' z)) u).getD i z =
      (List.range N).foldl (fun acc j => add acc (inc i j)) z := by
  induction l generalizing u with
  | nil => exact absurd hmem (List.not_mem_nil i)
  | cons ihd t ihl =>
    rw [List.foldl_cons]
    by_cases hih : i = ihd
    · subst hih
      have hnot : i ∉ t := (List.nodup_cons.mp hnd).1
      have hb : ∀ (w : List α) (i' : ℕ), i' ≠ i →
          ((List.range N).foldl
            (fun w' j => w'.set i' (add (w'.getD i' z) (inc i' j))) (w.set i' z)).getD i z =
            w.getD i z := by
        intro w i' hne
        rw [foldl_set1_other z add (inc i') i' (List.range N) (w.set i' z) i
          (fun hh => hne hh.symm),
          getD_set_ne1 _ _ _ _ _ (fun hh => hne hh.symm)]
      rw [foldl_entries_other z _ t _ i hb hnot]
      rw [foldl_set1_entry z add (inc i) i (List.range N) _
        (by rw [List.length_set]; exact hi), getD_set_self1 _ _ _ _ hi]
    · have hmem' : i ∈ t := by
        rcases List.mem_cons.mp hmem with h | h
        · exact absurd h hih
        · exact h
      refine ihl _ ?_ hmem' (List.nodup_cons.mp hnd).2
      rw [foldl_set1_length z add (inc ihd) ihd (List.range N) (u.set ihd z),
        List.length_set]
      exact hi

/-- C5: the (spec-modelled) `matvecmul(a, v, u)` fails with a
dimension-mismatch error unless `v.length = a.cols` and `u.length = a.rows`;
otherwise it succeeds and sets every `u[i]` (`i < a.rows`) to the dot
product of row `i` of `a` with `v`, obtained by zeroing `u[i]` first and
then accumulating `u[i] = u[i] + a[i][j] * v[j]` in column order
`j = 0 .. cols-1` — the left fold of the products starting from zero, over
abstract f64 arithmetic. -/
theorem matvecmul_spec (z : α) (add mul : α → α → α) (a : Matrix α)
    (v u : List α) :
    (¬(v.length = a.n ∧ u.length = a.m) →
      matvecmul z add mul a v u = .error "dimension mismatch") ∧
    (v.length = a.n → u.length = a.m →
      ∃ u' : List α, matvecmul z add mul a v u = .ok u' ∧ u'.length = a.m ∧
        ∀ i, i < a.m →
          u'.getD i z =
            (List.range a.n).foldl
              (fun acc j => add acc (mul (a.data.getD (i * a.n + j) z) (v.getD j z)))
              z) := by
  constructor
  · intro h
    unfold matvecmul
    rw [if_neg h]
  · intro hv hu
    unfold matvecmul
    rw [if_pos ⟨hv, hu⟩]
    refine ⟨_, rfl, ?_, ?_⟩
    · rw [matvec_rows_length z add
        (fun i' j => mul (a.data.getD (i' * a.n + j) z) (v.getD j z)) a.n
        (List.range a.m) u]
      exact hu
    · intro i hi
      exact matvec_rows_entry z add
        (fun i' j => mul (a.data.getD (i' * a.n + j) z) (v.getD j z)) a.n
        (List.range a.m) u i (by omega) (List.mem_range.mpr hi)
        (List.nodup_range _)

/-- C5 witness: the 2×2 times length-2 vector case, both the mismatch
rejection and the entry values. -/
theorem matvecmul_spec_witness :
    (¬([(10 : ℚ), 100, 1000].length = (Matrix.mk 2 2 [(1 : ℚ), 2, 3, 4]).n ∧
        [(9 : ℚ), 9].length = (Matrix.mk 2 2 [(1 : ℚ), 2, 3, 4]).m) →
      matvecmul (0 : ℚ) (· + ·) (· * ·) (Matrix.mk 2 2 [(1 : ℚ), 2, 3, 4])
        [(10 : ℚ), 100, 1000] [(9 : ℚ), 9] = .error "dimension mismatch") ∧
    ([(10 : ℚ), 100].length = (Matrix.mk 2 2 [(1 : ℚ), 2, 3, 4]).n →
      [(9 : ℚ), 9].length = (Matrix.mk 2 2 [(1 : ℚ), 2, 3, 4]).m →
      ∃ u' : List ℚ,
        matvecmul (0 : ℚ) (· + ·) (· * ·) (Matrix.mk 2 2 [(1 : ℚ), 2, 3, 4])
          [(10 : ℚ), 100] [(9 : ℚ), 9] = .ok u' ∧
        u'.length = (Matrix.mk 2 2 [(1 : ℚ), 2, 3, 4]).m ∧
        ∀ i, i < (Matrix.mk 2 2 [(1 : ℚ), 2, 3, 4]).m →
          u'.getD i 0 =
            (List.range (Matrix.mk 2 2 [(1 : ℚ), 2, 3, 4]).n).foldl
              (fun acc j => acc +
                (Matrix.mk 2 2 [(1 : ℚ), 2, 3, 4]).data.getD
                  (i * (Matrix.mk 2 2 [(1 : ℚ), 2, 3, 4]).n + j) 0 *
                [(10 : ℚ), 100].getD j 0) 0) :=
  ⟨(matvecmul_spec (0 : ℚ) (· + ·) (· * ·) (Matrix.mk 2 2 [(1 : ℚ), 2, 3, 4])
      [(10 : ℚ), 100, 1000] [(9 : ℚ), 9]).1,
    fun hv hu =>
      (matvecmul_spec (0 : ℚ) (· + ·) (· * ·) (Matrix.mk 2 2 [(1 : ℚ), 2, 3, 4])
        [(10 : ℚ), 100] [(9 : ℚ), 9]).2 hv hu⟩

end Rnla
